import Mathlib

/-!
Verification development for the `stringwrap` Go package (`stringwrap.go`).

The wrapping engine is embedded shallowly:

* A `Rune` is a Unicode code point (`Nat`), as in Go.
* The external collaborators declared out of scope by the design
  (grapheme-boundary segmentation via `uniseg`, display-width measurement
  via `go-runewidth`, and the Go `unicode` letter/number classification)
  are bundled in an `Externals` record of plain functions; everything in the
  engine is parametric over it.  Widths, offsets and configuration values
  are `Int`, matching Go `int` arithmetic (which may go negative here).
* The driver loop of `stringWrap` classifies each input position as an
  escape run, a non-breaking space, one of several whitespace kinds, or a
  grapheme cluster; that classification (performed by `ansiwalker` and
  `uniseg`, both external) is embedded as a token list `List Atom`, one
  `Atom` per loop iteration of the Go driver.
* The recursion in `flushWordBuffer` is not structurally decreasing, so it
  is given explicit fuel and returns `Option`; `none` means the Go code
  does not return normally (unbounded recursion, or the
  `strings.Repeat` runtime error on a negative count).
-/

abbrev Rune := Nat

/-- The line-feed code point, the only line terminator the engine emits. -/
def NL : Rune := 10

/-- Number of bytes of the UTF-8 encoding of a code point, as computed by
Go `utf8.RuneLen` / used by `len` on strings built from runes. -/
def utf8Len (r : Rune) : Nat :=
  if r < 0x80 then 1 else if r < 0x800 then 2 else if r < 0x10000 then 3 else 4

/-- Go `len` of a string given as a rune list: total UTF-8 byte count. -/
def byteLen (s : List Rune) : Int :=
  Int.ofNat (s.foldr (fun r a => utf8Len r + a) 0)

/-- Go `unicode.IsSpace`: White_Space code points (Latin-1 cases plus the
Unicode space separators and line/paragraph separators). -/
def goIsSpace (r : Rune) : Bool :=
  r == 0x09 || r == 0x0A || r == 0x0B || r == 0x0C || r == 0x0D || r == 0x20 ||
  r == 0x85 || r == 0xA0 || r == 0x1680 || (0x2000 ≤ r && r ≤ 0x200A) ||
  r == 0x2028 || r == 0x2029 || r == 0x202F || r == 0x205F || r == 0x3000

/-- Go `strings.TrimRightFunc s unicode.IsSpace`. -/
def trimRightSpace (s : List Rune) : List Rune :=
  (s.reverse.dropWhile goIsSpace).reverse

/-- The external collaborators of the engine, with their narrow contracts:
rune/string display width (`go-runewidth`), grapheme segmentation of a
word buffer (`uniseg.NewGraphemes`), and letter/number classification of
a code point (Go `unicode`). -/
structure Externals where
  runeWidth : Rune → Int
  stringWidth : List Rune → Int
  graphemes : List Rune → List (List Rune)
  isLetter : Rune → Bool
  isNumber : Rune → Bool

/-- `isWordyGrapheme`: the first rune of the cluster is a letter or a
number.  Decoding the empty string yields `utf8.RuneError` (U+FFFD). -/
def isWordyGrapheme (ext : Externals) (g : List Rune) : Bool :=
  match g with
  | [] => ext.isLetter 0xFFFD || ext.isNumber 0xFFFD
  | r :: _ => ext.isLetter r || ext.isNumber r

/-- `btoi`: boolean to integer. -/
def btoi (b : Bool) : Int := if b then 1 else 0

/-- `LineOffset`: half-open interval `[start, stop)` of byte or rune
offsets in the original input (Go fields `Start`/`End`). -/
structure LineOffset where
  start : Int
  stop : Int
deriving DecidableEq, Repr

/-- `WrappedString`: one wrapped segment plus its metadata. -/
structure WrappedString where
  curLineNum : Nat
  origLineNum : Nat
  origByteOffset : LineOffset
  origRuneOffset : LineOffset
  segmentInOrig : Nat
  lastSegmentInOrig : Bool
  notWithinLimit : Bool
  isHardBreak : Bool
  width : Int
  endsWithSplitWord : Bool
deriving DecidableEq, Repr

/-- `WrappedStringSeq`: the segment sequence plus the configuration used. -/
structure WrappedStringSeq where
  wrappedLines : List WrappedString
  wordSplitAllowed : Bool
  tabSize : Int
  limit : Int
deriving DecidableEq, Repr

/-- `positions`: the mutable counters of the wrapping process (the field
`timmedWhiteSpace` keeps the source's spelling). -/
structure Positions where
  curLineWidth : Int
  curLineNum : Nat
  origLineNum : Nat
  curWordWidth : Int
  origLineSegment : Nat
  origStartLineByte : Int
  origStartLineRune : Int
  timmedWhiteSpace : Int
deriving DecidableEq, Repr

/-- `wordWrapConfig`. -/
structure WordWrapConfig where
  limit : Int
  tabSize : Int
  trimWhitespace : Bool
  splitWord : Bool
deriving DecidableEq, Repr

/-- `wrapStateMachine`: the three buffers, the counters, the accumulated
segment list and the configuration. -/
structure WrapStateMachine where
  lineBuffer : List Rune
  wordBuffer : List Rune
  buffer : List Rune
  pos : Positions
  seq : List WrappedString
  config : WordWrapConfig
  wordHasNbsp : Bool
deriving DecidableEq, Repr

/-- `graphemeWordIter`: the split-point scanner state (the iterator itself
is passed separately as the cluster list still to visit). -/
structure GraphemeWordIter where
  subWordBuffer : List Rune
  subWordWidth : Int
  preLimitCluster : List Rune
  nextClusterWidth : Int
  cluster : List Rune
deriving DecidableEq, Repr

/-- The zero value of `graphemeWordIter` as constructed in
`flushWordBuffer`. -/
def initGIter : GraphemeWordIter :=
  { subWordBuffer := [], subWordWidth := 0, preLimitCluster := [],
    nextClusterWidth := 0, cluster := [] }

/-- `graphemeWordIter.needsHyphen`. -/
def needsHyphen (ext : Externals) (g : GraphemeWordIter) : Bool :=
  isWordyGrapheme ext g.cluster && isWordyGrapheme ext g.preLimitCluster

/-- `graphemeWordIter.iter`: walk clusters while
`subWordWidth + lineWidth + nextClusterWidth < limit`, committing the
previous cluster to the sub-word buffer on each pass (the Go loop calls
`Next()` first, so the condition is tested with the widths of the pass
before). -/
def gIterLoop (ext : Externals) (lineWidth limit : Int) :
    GraphemeWordIter → List (List Rune) → GraphemeWordIter
  | g, [] => g
  | g, c :: rest =>
    if g.subWordWidth + lineWidth + g.nextClusterWidth < limit then
      gIterLoop ext lineWidth limit
        { subWordBuffer := g.subWordBuffer ++ g.cluster
          subWordWidth := g.subWordWidth + g.nextClusterWidth
          preLimitCluster := g.cluster
          nextClusterWidth := ext.stringWidth c
          cluster := c } rest
    else g

/-- The rendered line once `writeLine` has applied trimming (before the
terminator is appended). -/
def lineAfterTrim (w : WrapStateMachine) : List Rune :=
  if w.config.trimWhitespace then trimRightSpace w.lineBuffer else w.lineBuffer

/-- The width `writeLine` records: recomputed with the external
`StringWidth` over the whole trimmed line when trimming is enabled,
otherwise the tracked `curLineWidth`. -/
def lineWidthAfterTrim (ext : Externals) (w : WrapStateMachine) : Int :=
  if w.config.trimWhitespace then ext.stringWidth (trimRightSpace w.lineBuffer)
  else w.pos.curLineWidth

/-- The `timmedWhiteSpace` counter at the moment `writeLine` computes the
end offsets (trimming adds the width difference). -/
def twsAfterTrim (ext : Externals) (w : WrapStateMachine) : Int :=
  if w.config.trimWhitespace then
    w.pos.timmedWhiteSpace + (w.pos.curLineWidth - lineWidthAfterTrim ext w)
  else w.pos.timmedWhiteSpace

/-- `positions.endCalc` applied to the byte coordinate, with the line text
already carrying its terminator (hence the `- 1`). -/
def endByteOf (ext : Externals) (hard split : Bool) (w : WrapStateMachine) : Int :=
  w.pos.origStartLineByte + byteLen (lineAfterTrim w ++ [NL]) - 1 +
    btoi hard - btoi split + twsAfterTrim ext w

/-- `positions.endCalc` applied to the rune coordinate. -/
def endRuneOf (ext : Externals) (hard split : Bool) (w : WrapStateMachine) : Int :=
  w.pos.origStartLineRune + Int.ofNat (lineAfterTrim w ++ [NL]).length - 1 +
    btoi hard - btoi split + twsAfterTrim ext w

/-- The `WrappedString` record `writeLine` constructs. -/
def segOf (ext : Externals) (hard split : Bool) (w : WrapStateMachine) : WrappedString :=
  { origLineNum := w.pos.origLineNum
    curLineNum := w.pos.curLineNum
    origByteOffset := { start := w.pos.origStartLineByte, stop := endByteOf ext hard split w }
    origRuneOffset := { start := w.pos.origStartLineRune, stop := endRuneOf ext hard split w }
    segmentInOrig := w.pos.origLineSegment + 1
    lastSegmentInOrig := hard
    notWithinLimit := decide (lineWidthAfterTrim ext w > w.config.limit)
    isHardBreak := hard
    width := lineWidthAfterTrim ext w
    endsWithSplitWord := split }

/-- `wrapStateMachine.writeLine`: trim, append the terminator, move the
line to the output buffer, record the segment, advance the persistent
offsets and reset the line-local counters. -/
def writeLine (ext : Externals) (hard split : Bool) (w : WrapStateMachine) : WrapStateMachine :=
  { w with
    buffer := w.buffer ++ (lineAfterTrim w ++ [NL])
    lineBuffer := []
    seq := w.seq ++ [segOf ext hard split w]
    pos := { w.pos with
      origLineSegment := w.pos.origLineSegment + 1
      curLineNum := w.pos.curLineNum + 1
      origStartLineByte := endByteOf ext hard split w
      origStartLineRune := endRuneOf ext hard split w
      curLineWidth := 0
      timmedWhiteSpace := 0 } }

/-- `wrapStateMachine.writeHardLine`. -/
def writeHardLine (ext : Externals) (w : WrapStateMachine) : WrapStateMachine :=
  writeLine ext true false w

/-- `wrapStateMachine.writeSoftLine`. -/
def writeSoftLine (ext : Externals) (endsSplit : Bool) (w : WrapStateMachine) : WrapStateMachine :=
  writeLine ext false endsSplit w

/-- `wrapStateMachine.flushLineBuffer`: break the line first if appending
`length` more columns would exceed the limit. -/
def flushLineBuffer (ext : Externals) (length : Int) (w : WrapStateMachine) : WrapStateMachine :=
  if w.pos.curLineWidth + length > w.config.limit then writeSoftLine ext false w else w

/-- `wrapStateMachine.writeWord`: move the word buffer into the line
buffer. -/
def writeWord (w : WrapStateMachine) : WrapStateMachine :=
  { w with
    lineBuffer := w.lineBuffer ++ w.wordBuffer
    wordBuffer := []
    pos := { w.pos with
      curLineWidth := w.pos.curLineWidth + w.pos.curWordWidth
      curWordWidth := 0 } }

/-- `wrapStateMachine.writeSpaceToLine`: flush for one more column, then
either write the space rune or count it as trimmed leading whitespace. -/
def writeSpaceToLine (ext : Externals) (r : Rune) (w : WrapStateMachine) : WrapStateMachine :=
  let w1 := flushLineBuffer ext 1 w
  if !w1.config.trimWhitespace || w1.pos.curLineWidth > 0 then
    { w1 with
      lineBuffer := w1.lineBuffer ++ [r]
      pos := { w1.pos with curLineWidth := w1.pos.curLineWidth + 1 } }
  else
    { w1 with pos := { w1.pos with timmedWhiteSpace := w1.pos.timmedWhiteSpace + 1 } }

/-- The stop-aligned tab advance `writeTabToLine` first computes (Go `%`
is truncated division remainder). -/
def tabAdj0 (w : WrapStateMachine) : Int :=
  if w.config.tabSize > 0 then
    w.config.tabSize - Int.tmod w.pos.curLineWidth w.config.tabSize
  else 0

/-- The machine and adjusted tab size after `writeTabToLine` has flushed
and corrected for an empty line buffer, before the spaces are written. -/
def tabPair (ext : Externals) (w : WrapStateMachine) : WrapStateMachine × Int :=
  let w1 := flushLineBuffer ext (tabAdj0 w) w
  if w1.lineBuffer = [] then
    if w1.config.trimWhitespace then
      ({ w1 with pos := { w1.pos with timmedWhiteSpace := w1.pos.timmedWhiteSpace + 1 } }, 0)
    else (w1, w1.config.tabSize)
  else (w1, tabAdj0 w)

/-- `wrapStateMachine.writeTabToLine`.  Returns the adjusted tab size the
caller adds to `curLineWidth`.  `none` models the `strings.Repeat`
runtime error on a negative count (reachable when `tabSize < 0`). -/
def writeTabToLine (ext : Externals) (w : WrapStateMachine) : Option (WrapStateMachine × Int) :=
  if (tabPair ext w).2 < 0 then none
  else some
    ({ (tabPair ext w).1 with
        lineBuffer := (tabPair ext w).1.lineBuffer ++ List.replicate (tabPair ext w).2.toNat 0x20 },
      (tabPair ext w).2)

/-- One step of the word-splitting branch of `flushWordBuffer`: scan the
word's grapheme clusters for the cut point, move the consumed sub-word
(plus a hyphen when required) to the line, finalize that line as a
split-word soft break, and remove the consumed prefix from the word
buffer.  `wordBuffer.Next n` drops `n` bytes; since the consumed sub-word
is a prefix of the word buffer (the external segmentation partitions the
string it is given), this is dropping that many runes here. -/
def splitStep (ext : Externals) (w : WrapStateMachine) : WrapStateMachine :=
  let g := gIterLoop ext w.pos.curLineWidth w.config.limit initGIter (ext.graphemes w.wordBuffer)
  let w1 := { w with lineBuffer := w.lineBuffer ++ g.subWordBuffer }
  let w2 :=
    if needsHyphen ext g then
      { w1 with
        lineBuffer := w1.lineBuffer ++ [0x2D]
        pos := { w1.pos with curLineWidth := w1.pos.curLineWidth + 1 } }
    else w1
  let w3 := { w2 with pos := { w2.pos with curLineWidth := w2.pos.curLineWidth + g.subWordWidth } }
  let w4 := writeSoftLine ext (needsHyphen ext g) w3
  { w4 with
    wordBuffer := w4.wordBuffer.drop g.subWordBuffer.length
    pos := { w4.pos with curWordWidth := w4.pos.curWordWidth - g.subWordWidth } }

/-- `wrapStateMachine.flushWordBuffer`.  The Go function recurses on the
shrunken word buffer after a split step; the recursion is given explicit
fuel, `none` meaning it never returns.  The early-return branch (line at
capacity with an empty word) skips the `wordHasNbsp` reset, exactly as in
the source. -/
def flushWordBuffer (ext : Externals) : Nat → WrapStateMachine → Option WrapStateMachine
  | 0, _ => none
  | Nat.succ fuel, w =>
    if w.pos.curWordWidth + w.pos.curLineWidth > w.config.limit then
      if w.pos.curWordWidth = 0 then some (writeSoftLine ext false w)
      else if w.config.splitWord && !w.wordHasNbsp then
        (flushWordBuffer ext fuel (splitStep ext w)).map
          (fun x => { x with wordHasNbsp := false })
      else
        let w1 := if w.pos.curLineWidth > 0 then writeSoftLine ext false w else w
        some { (writeWord w1) with wordHasNbsp := false }
    else some { (writeWord w) with wordHasNbsp := false }

/-- One classified token of the driver loop: exactly what one iteration of
the `stringWrap` scan consumes.  Escape runs carry their runes verbatim;
hard-break code points all behave identically so carry no payload;
`otherSpace` is the whitespace default case (its rune and external width
matter); `cluster` is a grapheme cluster pulled by `uniseg`. -/
inductive Atom where
  | ansi (runes : List Rune)
  | nbsp
  | space
  | hardBreak
  | tab
  | ignorable
  | otherSpace (r : Rune)
  | cluster (runes : List Rune)
deriving DecidableEq, Repr

/-- One driver-loop iteration: dispatch one classified token to the state
machine, exactly following the `switch` in `stringWrap`. -/
def stepAtom (ext : Externals) (fuel : Nat) (w : WrapStateMachine) :
    Atom → Option WrapStateMachine
  | .ansi rs =>
    (flushWordBuffer ext fuel w).map fun w1 =>
      { w1 with lineBuffer := w1.lineBuffer ++ rs }
  | .nbsp =>
    some { w with
      wordHasNbsp := true
      wordBuffer := w.wordBuffer ++ [0xA0]
      pos := { w.pos with curWordWidth := w.pos.curWordWidth + 1 } }
  | .space =>
    (flushWordBuffer ext fuel w).map fun w1 => writeSpaceToLine ext 0x20 w1
  | .hardBreak =>
    (flushWordBuffer ext fuel w).map fun w1 =>
      let w2 := writeHardLine ext w1
      { w2 with pos := { w2.pos with
          origLineNum := w2.pos.origLineNum + 1
          origLineSegment := 0 } }
  | .tab =>
    (flushWordBuffer ext fuel w).bind fun w1 =>
      (writeTabToLine ext w1).map fun p =>
        { p.1 with pos := { p.1.pos with curLineWidth := p.1.pos.curLineWidth + p.2 } }
  | .ignorable => flushWordBuffer ext fuel w
  | .otherSpace r =>
    (flushWordBuffer ext fuel w).map fun w1 =>
      let w2 := writeSpaceToLine ext r w1
      { w2 with pos := { w2.pos with
          curLineWidth := w2.pos.curLineWidth + (ext.runeWidth r - 1) } }
  | .cluster rs =>
    if rs = [] then some w
    else
      some { w with
        wordBuffer := w.wordBuffer ++ rs
        pos := { w.pos with curWordWidth := w.pos.curWordWidth + ext.stringWidth rs } }

/-- The driver loop over the classified input. -/
def runAtoms (ext : Externals) (fuel : Nat) : List Atom → WrapStateMachine → Option WrapStateMachine
  | [], w => some w
  | a :: rest, w => (stepAtom ext fuel w a).bind (runAtoms ext fuel rest)

/-- The initial machine of one `stringWrap` call. -/
def initMachine (cfg : WordWrapConfig) : WrapStateMachine :=
  { lineBuffer := [], wordBuffer := [], buffer := [], seq := []
    pos := { curLineWidth := 0, curLineNum := 1, origLineNum := 1, curWordWidth := 0,
             origLineSegment := 0, origStartLineByte := 0, origStartLineRune := 0,
             timmedWhiteSpace := 0 }
    config := cfg
    wordHasNbsp := false }

/-- Retroactively set the last segment's `LastSegmentInOrig` flag. -/
def setLastInOrig (s : WrappedString) : WrappedString :=
  { s with lastSegmentInOrig := true }

/-- Replace the last element's flag, as the end-of-input fixup does. -/
def updateLast (l : List WrappedString) : List WrappedString :=
  match l.getLast? with
  | none => l
  | some s => l.dropLast ++ [setLastInOrig s]

/-- The end-of-input fixup of `stringWrap`: when the last segment is not a
hard break, drop the trailing terminator byte from the output buffer and
mark the segment as last in its original line. -/
def finalize (w : WrapStateMachine) : List Rune × List WrappedString :=
  match w.seq.getLast? with
  | none => (w.buffer, w.seq)
  | some s => if s.isHardBreak then (w.buffer, w.seq) else (w.buffer.dropLast, updateLast w.seq)

/-- `stringWrap`: validate the limit, run the driver, flush, emit the last
line, apply the end-of-input fixup.  `some (Except.error _)` is the
`InvalidLimit` failure; `none` means the call does not return normally. -/
def stringWrap (ext : Externals) (fuel : Nat) (atoms : List Atom)
    (limit tabSize : Int) (trimWhitespace splitWord : Bool) :
    Option (Except String (List Rune × WrappedStringSeq)) :=
  if limit < 2 then some (Except.error "limit must be greater than one")
  else
    match runAtoms ext fuel atoms
        (initMachine { limit := limit, tabSize := tabSize,
                       trimWhitespace := trimWhitespace, splitWord := splitWord }) with
    | none => none
    | some w =>
      match flushWordBuffer ext fuel w with
      | none => none
      | some w1 =>
        let w2 := if w1.lineBuffer = [] then w1 else writeSoftLine ext false w1
        let p := finalize w2
        some (Except.ok (p.1,
          { wrappedLines := p.2, wordSplitAllowed := splitWord,
            tabSize := tabSize, limit := limit }))

/-- `StringWrap`: word splitting disabled. -/
def goStringWrap (ext : Externals) (fuel : Nat) (atoms : List Atom)
    (limit tabSize : Int) (trimWhitespace : Bool) :
    Option (Except String (List Rune × WrappedStringSeq)) :=
  stringWrap ext fuel atoms limit tabSize trimWhitespace false

/-- `StringWrapSplit`: word splitting enabled. -/
def goStringWrapSplit (ext : Externals) (fuel : Nat) (atoms : List Atom)
    (limit tabSize : Int) (trimWhitespace : Bool) :
    Option (Except String (List Rune × WrappedStringSeq)) :=
  stringWrap ext fuel atoms limit tabSize trimWhitespace true

/-! ### Auxiliary definitions for the verification -/

/-- No rune that the machine would copy into a line can be the terminator:
escape runs and clusters are terminator-free and the default-whitespace
rune is not `\n` (in Go this holds by construction: `\n` is classified as
a hard break and escape sequences and grapheme clusters never contain
it). -/
def atomNLFree : Atom → Bool
  | .ansi rs => rs.all (fun r => r ≠ NL)
  | .cluster rs => rs.all (fun r => r ≠ NL)
  | .otherSpace r => r ≠ NL
  | _ => true

/-- All atoms of an input are terminator-free. -/
def atomsNLFree (l : List Atom) : Bool := l.all atomNLFree

/-- Walks a segment list checking that each segment starts (in both the
byte and the rune coordinate) exactly where the previous one stopped,
returning the final pair of end offsets; `none` when the chain is
broken. -/
def chainEnd : Int → Int → List WrappedString → Option (Int × Int)
  | b, r, [] => some (b, r)
  | b, r, s :: rest =>
    if s.origByteOffset.start = b ∧ s.origRuneOffset.start = r then
      chainEnd s.origByteOffset.stop s.origRuneOffset.stop rest
    else none

/-- The tiling property claimed of the segment metadata: the first segment
starts at offset 0 in both coordinate spaces, and each segment's end
offset equals the next segment's start offset, independently for bytes
and runes. -/
def tiles (l : List WrappedString) : Prop :=
  (∀ s, l.head? = some s → s.origByteOffset.start = 0 ∧ s.origRuneOffset.start = 0) ∧
  (∀ i, (h : i + 1 < l.length) →
    (l.get ⟨i, Nat.lt_of_succ_lt h⟩).origByteOffset.stop = (l.get ⟨i + 1, h⟩).origByteOffset.start ∧
    (l.get ⟨i, Nat.lt_of_succ_lt h⟩).origRuneOffset.stop = (l.get ⟨i + 1, h⟩).origRuneOffset.start)

/-- Concatenate lines, terminating every line with `\n` (the shape of the
output buffer before the end-of-input fixup). -/
def joinNL : List (List Rune) → List Rune
  | [] => []
  | l :: rest => l ++ NL :: joinNL rest

/-- Number of pieces `strings.Split(out, "\n")` yields, with the empty
output counted as zero pieces, as the repository's own tests count it. -/
def nlPieces (s : List Rune) : Nat := if s = [] then 0 else s.count NL + 1

/-- Whether the last segment of the sequence is a hard break. -/
def lastIsHard (l : List WrappedString) : Bool :=
  match l.getLast? with
  | some s => s.isHardBreak
  | none => false

/-- Offset/flag invariant of the running machine: the configuration is
fixed, the segment offsets recorded so far chain from 0 up to the current
original-line start offsets, and no split-word flag is set when splitting
is disabled. -/
def InvA (cfg : WordWrapConfig) (w : WrapStateMachine) : Prop :=
  w.config = cfg ∧
  chainEnd 0 0 w.seq = some (w.pos.origStartLineByte, w.pos.origStartLineRune) ∧
  (cfg.splitWord = false → ∀ s ∈ w.seq, s.endsWithSplitWord = false)

/-- Buffer-shape invariant of the running machine: the output buffer is a
terminator-joined list of terminator-free lines, one per recorded
segment, and the line and word buffers are terminator-free. -/
def InvB (w : WrapStateMachine) : Prop :=
  (∃ lines, w.buffer = joinNL lines ∧ lines.length = w.seq.length ∧
    ∀ l ∈ lines, NL ∉ l) ∧
  NL ∉ w.lineBuffer ∧ NL ∉ w.wordBuffer

/-- A concrete instantiation of the external collaborators, matching
`go-runewidth` and Go `unicode` on the code points used in the concrete
runs below: escape is zero width, CJK ideographs, ideographic space and
emoji are double width, everything else single width; string width is the
rune-width sum; every rune is its own grapheme cluster; letters and
numbers are the ASCII ones. -/
def demoExt : Externals :=
  { runeWidth := fun r =>
      if r == 0x1B then 0
      else if r == 0x3000 || (0x4E00 ≤ r && r ≤ 0x9FFF) || (0x1F300 ≤ r && r ≤ 0x1FAFF) then 2
      else 1
    stringWidth := fun s => s.foldr (fun r a =>
      (if r == 0x1B then 0
       else if r == 0x3000 || (0x4E00 ≤ r && r ≤ 0x9FFF) || (0x1F300 ≤ r && r ≤ 0x1FAFF) then 2
       else 1) + a) 0
    graphemes := fun w => w.map (fun r => [r])
    isLetter := fun r => (65 ≤ r && r ≤ 90) || (97 ≤ r && r ≤ 122)
    isNumber := fun r => 48 ≤ r && r ≤ 57 }

/-- Output text of a successful run (empty otherwise). -/
def wrapOut (r : Option (Except String (List Rune × WrappedStringSeq))) : List Rune :=
  match r with
  | some (Except.ok p) => p.1
  | _ => []

/-- Segment list of a successful run (empty otherwise). -/
def wrapSegs (r : Option (Except String (List Rune × WrappedStringSeq))) : List WrappedString :=
  match r with
  | some (Except.ok p) => p.2.wrappedLines
  | _ => []

/-- Full result sequence of a successful run. -/
def wrapSeqFull (r : Option (Except String (List Rune × WrappedStringSeq))) : WrappedStringSeq :=
  match r with
  | some (Except.ok p) => p.2
  | _ => { wrappedLines := [], wordSplitAllowed := false, tabSize := 0, limit := 0 }

/-- Whether a run returned successfully. -/
def wrapOk (r : Option (Except String (List Rune × WrappedStringSeq))) : Bool :=
  match r with
  | some (Except.ok _) => true
  | _ => false

/-- The classified input `"ab cd\nef"`. -/
def atomsDemo : List Atom :=
  [Atom.cluster [97], Atom.cluster [98], Atom.space, Atom.cluster [99],
   Atom.cluster [100], Atom.hardBreak, Atom.cluster [101], Atom.cluster [102]]

/-- `StringWrap "ab cd\nef" 4 4 true`. -/
def resDemo : Option (Except String (List Rune × WrappedStringSeq)) :=
  goStringWrap demoExt 50 atomsDemo 4 4 true

/-- `StringWrapSplit "ab cd\nef" 4 4 true`. -/
def resDemoSplit : Option (Except String (List Rune × WrappedStringSeq)) :=
  goStringWrapSplit demoExt 50 atomsDemo 4 4 true

/-- The classified input `"世界"`: a single word of two double-width
grapheme clusters. -/
def atomsWorld : List Atom := [Atom.cluster [0x4E16], Atom.cluster [0x754C]]

/-- The configuration of `StringWrapSplit(_, 2, 4, false)`. -/
def divergeCfg : WordWrapConfig :=
  { limit := 2, tabSize := 4, trimWhitespace := false, splitWord := true }

/-- The machine state reached at the end-of-input flush of
`StringWrapSplit("世界", 2, 4, false)`: the word buffer holds both
clusters, four columns wide, and the line is empty. -/
def divergeMachine : WrapStateMachine :=
  { initMachine divergeCfg with
    wordBuffer := [0x4E16, 0x754C]
    pos := { (initMachine divergeCfg).pos with curWordWidth := 4 } }

/-- The shape of machine states on which the split recursion of
`flushWordBuffer` makes no progress: an empty current line, a pending
word of the two CJK clusters (width 4), splitting on, no non-breaking
space, limit 2. -/
def DivState (w : WrapStateMachine) : Prop :=
  w.config = divergeCfg ∧ w.wordBuffer = [0x4E16, 0x754C] ∧
  w.pos.curWordWidth = 4 ∧ w.pos.curLineWidth = 0 ∧ w.wordHasNbsp = false

/-- The classified input `"\x1b[31mred\x1b[0m"`. -/
def atomsAnsi : List Atom :=
  [Atom.ansi [27, 91, 51, 49, 109], Atom.cluster [114], Atom.cluster [101],
   Atom.cluster [100], Atom.ansi [27, 91, 48, 109]]

/-- `StringWrap "\x1b[31mred\x1b[0m" 10 4 true` (trimming on). -/
def resAnsiTrim : Option (Except String (List Rune × WrappedStringSeq)) :=
  goStringWrap demoExt 50 atomsAnsi 10 4 true

/-- `StringWrap "\x1b[31mred\x1b[0m" 10 4 false` (trimming off). -/
def resAnsiNoTrim : Option (Except String (List Rune × WrappedStringSeq)) :=
  goStringWrap demoExt 50 atomsAnsi 10 4 false

/-- The classified input `"a\n"`. -/
def atomsHardA : List Atom := [Atom.cluster [97], Atom.hardBreak]

/-- `StringWrap "a\n" 5 4 true`. -/
def resHardA : Option (Except String (List Rune × WrappedStringSeq)) :=
  goStringWrap demoExt 50 atomsHardA 5 4 true

/-- The classified input `"b\r"`. -/
def atomsHardB : List Atom := [Atom.cluster [98], Atom.hardBreak]

/-- `StringWrap "b\r" 5 4 true`. -/
def resHardB : Option (Except String (List Rune × WrappedStringSeq)) :=
  goStringWrap demoExt 50 atomsHardB 5 4 true

/-- The classified input of two ideographic spaces (U+3000). -/
def atomsIdeo : List Atom := [Atom.otherSpace 0x3000, Atom.otherSpace 0x3000]

/-- `StringWrap "　　" 5 4 true`. -/
def resIdeo : Option (Except String (List Rune × WrappedStringSeq)) :=
  goStringWrap demoExt 50 atomsIdeo 5 4 true

/-- The classified input `"abc\vdef"`. -/
def atomsVT : List Atom :=
  [Atom.cluster [97], Atom.cluster [98], Atom.cluster [99], Atom.ignorable,
   Atom.cluster [100], Atom.cluster [101], Atom.cluster [102]]

/-- The classified input `"abcdef"` (the same input with the vertical tab
deleted). -/
def atomsNoVT : List Atom :=
  [Atom.cluster [97], Atom.cluster [98], Atom.cluster [99],
   Atom.cluster [100], Atom.cluster [101], Atom.cluster [102]]

/-- `StringWrap "abc\vdef" 4 4 true`. -/
def resVT : Option (Except String (List Rune × WrappedStringSeq)) :=
  goStringWrap demoExt 50 atomsVT 4 4 true

/-- `StringWrap "abcdef" 4 4 true`. -/
def resNoVT : Option (Except String (List Rune × WrappedStringSeq)) :=
  goStringWrap demoExt 50 atomsNoVT 4 4 true
/-- Every segment of the list has its split-word flag clear. -/
def allNotSplit (l : List WrappedString) : Prop :=
  ∀ s ∈ l, s.endsWithSplitWord = false

/-- The output text is the segment lines joined by single terminators,
with one trailing terminator exactly when the last segment is a hard
break. -/
def linesShape (out : List Rune) (l : List WrappedString) : Prop :=
  ∃ lines, lines.length = l.length ∧ (∀ x ∈ lines, NL ∉ x) ∧
    out = (joinNL lines).dropLast ++ (if lastIsHard l then [NL] else [])

/-! ### List helper lemmas -/

theorem mem_trimRightSpace {r : Rune} {s : List Rune} (h : r ∈ trimRightSpace s) : r ∈ s := by
  unfold trimRightSpace at h
  rw [List.mem_reverse] at h
  have := (List.dropWhile_sublist goIsSpace (l := s.reverse)).mem h
  rwa [List.mem_reverse] at this

theorem joinNL_append_single (ls : List (List Rune)) (x : List Rune) :
    joinNL (ls ++ [x]) = joinNL ls ++ (x ++ [NL]) := by
  induction ls with
  | nil => simp [joinNL]
  | cons l rest ih => simp [joinNL, ih]

theorem joinNL_concat_shape (ls : List (List Rune)) (h : ls ≠ []) :
    ∃ m, joinNL ls = m ++ [NL] := by
  induction ls with
  | nil => exact absurd rfl h
  | cons l rest ih =>
    cases rest with
    | nil => exact ⟨l, by simp [joinNL]⟩
    | cons y t =>
      obtain ⟨m, hm⟩ := ih (by simp)
      exact ⟨l ++ NL :: m, by simp [joinNL] at hm ⊢; simp [hm]⟩

theorem joinNL_eq_dropLast (ls : List (List Rune)) (h : ls ≠ []) :
    joinNL ls = (joinNL ls).dropLast ++ [NL] := by
  obtain ⟨m, hm⟩ := joinNL_concat_shape ls h
  rw [hm, List.dropLast_concat]

theorem count_joinNL (ls : List (List Rune)) (h : ∀ l ∈ ls, NL ∉ l) :
    (joinNL ls).count NL = ls.length := by
  induction ls with
  | nil => simp [joinNL]
  | cons l rest ih =>
    have h1 : NL ∉ l := h l (by simp)
    have h2 : ∀ x ∈ rest, NL ∉ x := fun x hx => h x (by simp [hx])
    simp [joinNL, List.count_append, List.count_eq_zero.mpr h1, ih h2, List.count_cons]

theorem joinNL_ne_nil (ls : List (List Rune)) (h : ls ≠ []) : joinNL ls ≠ [] := by
  cases ls with
  | nil => exact absurd rfl h
  | cons l rest => simp [joinNL]

theorem getLastD_congr {α : Type} (l : List α) (d e : α) (h : l ≠ []) :
    l.getLastD d = l.getLastD e := by
  cases l with
  | nil => exact absurd rfl h
  | cons a t => rw [List.getLastD_cons, List.getLastD_cons]

theorem take_getLastD_eq_drop_headD (cs : List (List Rune)) :
    ∀ k, 1 ≤ k → k ≤ cs.length →
      (cs.take k).getLastD [] = (cs.drop (k - 1)).headD [] := by
  induction cs with
  | nil => intro k h1 h2; simp at h2; omega
  | cons c rest ih =>
    intro k h1 h2
    match k, h1 with
    | 1, _ => simp [List.getLastD_cons]
    | Nat.succ (Nat.succ k2), _ =>
      have hr : 1 ≤ k2 + 1 := by omega
      have hr2 : k2 + 1 ≤ rest.length := by simpa using h2
      have hstep := ih (k2 + 1) hr hr2
      have hne : rest.take (k2 + 1) ≠ [] := by
        cases rest with
        | nil => simp at hr2
        | cons y t => simp
      calc ((c :: rest).take (k2 + 2)).getLastD [] = (rest.take (k2 + 1)).getLastD c := by
              rw [List.take_succ_cons, List.getLastD_cons]
        _ = (rest.take (k2 + 1)).getLastD [] := getLastD_congr _ _ _ hne
        _ = (rest.drop k2).headD [] := by simpa using hstep
        _ = ((c :: rest).drop (k2 + 2 - 1)).headD [] := by simp [List.drop_succ_cons]

/-! ### Chain lemmas -/

theorem chainEnd_append (l : List WrappedString) (s : WrappedString) :
    ∀ b r b0 r0, chainEnd b r l = some (b0, r0) →
      s.origByteOffset.start = b0 → s.origRuneOffset.start = r0 →
      chainEnd b r (l ++ [s]) = some (s.origByteOffset.stop, s.origRuneOffset.stop) := by
  induction l with
  | nil =>
    intro b r b0 r0 h hb hr
    simp [chainEnd] at h
    simp [chainEnd, hb, hr, h.1.symm, h.2.symm]
  | cons a rest ih =>
    intro b r b0 r0 h hb hr
    by_cases hcond : a.origByteOffset.start = b ∧ a.origRuneOffset.start = r
    · simp [chainEnd, hcond] at h ⊢
      exact ih _ _ _ _ h hb hr
    · simp [chainEnd, hcond] at h

theorem updateLast_cons_cons (a b : WrappedString) (t : List WrappedString) :
    updateLast (a :: b :: t) = a :: updateLast (b :: t) := by
  cases h : (b :: t).getLast? with
  | none => exact absurd h (by simp)
  | some s => simp [updateLast, List.getLast?_cons_cons, h]

theorem chainEnd_updateLast (l : List WrappedString) :
    ∀ b r, chainEnd b r (updateLast l) = chainEnd b r l := by
  induction l with
  | nil => intro b r; rfl
  | cons a rest ih =>
    intro b r
    cases rest with
    | nil =>
      simp [updateLast, chainEnd, setLastInOrig]
    | cons y t =>
      rw [updateLast_cons_cons]
      by_cases hcond : a.origByteOffset.start = b ∧ a.origRuneOffset.start = r
      · simp [chainEnd, hcond, ih]
      · simp [chainEnd, hcond]

theorem mem_updateLast {s : WrappedString} {l : List WrappedString}
    (h : s ∈ updateLast l) : s ∈ l ∨ ∃ t ∈ l, s = setLastInOrig t := by
  induction l with
  | nil => simp [updateLast] at h
  | cons a rest ih =>
    cases rest with
    | nil =>
      simp [updateLast] at h
      exact Or.inr ⟨a, by simp, h⟩
    | cons y t =>
      rw [updateLast_cons_cons] at h
      rcases List.mem_cons.mp h with h1 | h2
      · exact Or.inl (by simp [h1])
      · rcases ih h2 with h3 | ⟨u, hu, he⟩
        · exact Or.inl (by simp [h3])
        · exact Or.inr ⟨u, by simp [hu], he⟩

theorem updateLast_length (l : List WrappedString) : (updateLast l).length = l.length := by
  cases h : l.getLast? with
  | none => simp [updateLast, h]
  | some s =>
    have hne : l ≠ [] := by
      intro he; subst he; simp at h
    simp [updateLast, h]
    have h1 := List.length_dropLast l
    have h2 : 0 < l.length := List.length_pos.mpr hne
    omega

theorem lastIsHard_updateLast (l : List WrappedString) :
    lastIsHard (updateLast l) = lastIsHard l := by
  cases h : l.getLast? with
  | none => simp [updateLast, h]
  | some s => simp [updateLast, lastIsHard, h, List.getLast?_concat, setLastInOrig]

theorem chainEnd_tiles (l : List WrappedString) :
    ∀ b r e, chainEnd b r l = some e →
      ((∀ s, l.head? = some s → s.origByteOffset.start = b ∧ s.origRuneOffset.start = r) ∧
       (∀ i, (h : i + 1 < l.length) →
         (l.get ⟨i, Nat.lt_of_succ_lt h⟩).origByteOffset.stop =
           (l.get ⟨i + 1, h⟩).origByteOffset.start ∧
         (l.get ⟨i, Nat.lt_of_succ_lt h⟩).origRuneOffset.stop =
           (l.get ⟨i + 1, h⟩).origRuneOffset.start)) := by
  induction l with
  | nil =>
    intro b r e _
    refine ⟨by simp, ?_⟩
    intro i h
    simp at h
  | cons a rest ih =>
    intro b r e hch
    by_cases hcond : a.origByteOffset.start = b ∧ a.origRuneOffset.start = r
    · simp only [chainEnd, if_pos hcond] at hch
      obtain ⟨ihh, iht⟩ := ih _ _ _ hch
      refine ⟨by intro s hs; simp at hs; subst hs; exact hcond, ?_⟩
      intro i h
      match i with
      | 0 =>
        cases rest with
        | nil => simp at h
        | cons y t =>
          have := ihh y (by simp)
          simpa using ⟨this.1.symm, this.2.symm⟩
      | Nat.succ j =>
        have hlt : j + 1 < rest.length := by simpa using h
        simpa using iht j hlt
    · simp [chainEnd, hcond] at hch

/-! ### Preservation of the offset/flag invariant -/

theorem InvA_update {cfg : WordWrapConfig} {w : WrapStateMachine} (h : InvA cfg w)
    (w2 : WrapStateMachine) (hc : w2.config = w.config) (hs : w2.seq = w.seq)
    (hb : w2.pos.origStartLineByte = w.pos.origStartLineByte)
    (hr : w2.pos.origStartLineRune = w.pos.origStartLineRune) : InvA cfg w2 := by
  obtain ⟨h1, h2, h3⟩ := h
  exact ⟨hc.trans h1, by rw [hs, hb, hr]; exact h2, fun hf s hm => h3 hf s (hs ▸ hm)⟩

theorem InvA_writeLine (ext : Externals) (hard split : Bool) {cfg : WordWrapConfig}
    {w : WrapStateMachine} (h : InvA cfg w) (hs : split = true → cfg.splitWord = true) :
    InvA cfg (writeLine ext hard split w) := by
  obtain ⟨hc, hch, hf⟩ := h
  refine ⟨hc, ?_, ?_⟩
  · have happ := chainEnd_append w.seq (segOf ext hard split w) 0 0 _ _ hch rfl rfl
    simpa [writeLine, segOf] using happ
  · intro hsplit s hmem
    simp [writeLine] at hmem
    rcases hmem with hmem | hmem
    · exact hf hsplit s hmem
    · subst hmem
      simp [segOf]
      cases split with
      | false => rfl
      | true => exact absurd (hs rfl) (by simp [hsplit])

theorem InvA_writeSoftLine (ext : Externals) (endsSplit : Bool) {cfg : WordWrapConfig}
    {w : WrapStateMachine} (h : InvA cfg w) (hs : endsSplit = true → cfg.splitWord = true) :
    InvA cfg (writeSoftLine ext endsSplit w) :=
  InvA_writeLine ext false endsSplit h hs

theorem InvA_writeHardLine (ext : Externals) {cfg : WordWrapConfig}
    {w : WrapStateMachine} (h : InvA cfg w) : InvA cfg (writeHardLine ext w) :=
  InvA_writeLine ext true false h (by intro hx; simp at hx)

theorem InvA_flushLineBuffer (ext : Externals) (len : Int) {cfg : WordWrapConfig}
    {w : WrapStateMachine} (h : InvA cfg w) : InvA cfg (flushLineBuffer ext len w) := by
  unfold flushLineBuffer
  split
  · exact InvA_writeSoftLine ext false h (by intro hx; simp at hx)
  · exact h

theorem InvA_writeWord {cfg : WordWrapConfig} {w : WrapStateMachine} (h : InvA cfg w) :
    InvA cfg (writeWord w) :=
  InvA_update h _ rfl rfl rfl rfl

theorem InvA_writeSpaceToLine (ext : Externals) (r : Rune) {cfg : WordWrapConfig}
    {w : WrapStateMachine} (h : InvA cfg w) : InvA cfg (writeSpaceToLine ext r w) := by
  have h1 := InvA_flushLineBuffer ext 1 h
  simp only [writeSpaceToLine]
  split
  · exact InvA_update h1 _ rfl rfl rfl rfl
  · exact InvA_update h1 _ rfl rfl rfl rfl

theorem InvA_tabPair (ext : Externals) {cfg : WordWrapConfig}
    {w : WrapStateMachine} (h : InvA cfg w) : InvA cfg (tabPair ext w).1 := by
  have h1 := InvA_flushLineBuffer ext (tabAdj0 w) h
  simp only [tabPair]
  split
  · split
    · exact InvA_update h1 _ rfl rfl rfl rfl
    · exact h1
  · exact h1

theorem InvA_writeTabToLine (ext : Externals) {cfg : WordWrapConfig}
    {w w2 : WrapStateMachine} {adj : Int} (h : InvA cfg w)
    (hres : writeTabToLine ext w = some (w2, adj)) : InvA cfg w2 := by
  have h1 := InvA_tabPair ext h
  unfold writeTabToLine at hres
  split at hres
  · simp at hres
  · simp only [Option.some.injEq, Prod.mk.injEq] at hres
    rw [← hres.1]
    exact InvA_update h1 _ rfl rfl rfl rfl

theorem InvA_splitStep (ext : Externals) {cfg : WordWrapConfig}
    {w : WrapStateMachine} (h : InvA cfg w) (hsplit : cfg.splitWord = true) :
    InvA cfg (splitStep ext w) := by
  obtain ⟨hc, hch, hf⟩ := h
  simp only [splitStep]
  split
  · refine ⟨?_, ?_, ?_⟩
    · simp [writeSoftLine, writeLine, hc]
    · exact chainEnd_append _ _ _ _ _ _ hch rfl rfl
    · intro hx
      rw [hx] at hsplit
      exact absurd hsplit (by simp)
  · refine ⟨?_, ?_, ?_⟩
    · simp [writeSoftLine, writeLine, hc]
    · exact chainEnd_append _ _ _ _ _ _ hch rfl rfl
    · intro hx
      rw [hx] at hsplit
      exact absurd hsplit (by simp)

theorem InvA_flushWordBuffer (ext : Externals) {cfg : WordWrapConfig} :
    ∀ fuel (w w2 : WrapStateMachine), InvA cfg w →
      flushWordBuffer ext fuel w = some w2 → InvA cfg w2 := by
  intro fuel
  induction fuel with
  | zero => intro w w2 h hres; simp [flushWordBuffer] at hres
  | succ fuel ih =>
    intro w w2 h hres
    rw [flushWordBuffer] at hres
    split at hres
    · split at hres
      · simp only [Option.some.injEq] at hres
        rw [← hres]
        exact InvA_writeSoftLine ext false h (by intro hx; simp at hx)
      · split at hres
        · rename_i hexceeds hword hb
          rw [Option.map_eq_some'] at hres
          obtain ⟨x, hx, hw2⟩ := hres
          have hsplit : cfg.splitWord = true := by
            rw [← h.1]
            exact (Bool.and_eq_true_iff.mp hb).1
          have h5 := InvA_splitStep ext h hsplit
          have hxInv := ih _ _ h5 hx
          rw [← hw2]
          exact InvA_update hxInv _ rfl rfl rfl rfl
        · simp only [Option.some.injEq] at hres
          rw [← hres]
          split
          · exact InvA_update (InvA_writeWord (InvA_writeSoftLine ext false h
              (by intro hx; simp at hx))) _ rfl rfl rfl rfl
          · exact InvA_update (InvA_writeWord h) _ rfl rfl rfl rfl
    · simp only [Option.some.injEq] at hres
      rw [← hres]
      exact InvA_update (InvA_writeWord h) _ rfl rfl rfl rfl

theorem InvA_stepAtom (ext : Externals) (fuel : Nat) {cfg : WordWrapConfig}
    {w w2 : WrapStateMachine} (a : Atom) (h : InvA cfg w)
    (hres : stepAtom ext fuel w a = some w2) : InvA cfg w2 := by
  cases a with
  | ansi rs =>
    simp only [stepAtom, Option.map_eq_some'] at hres
    obtain ⟨x, hx, hw2⟩ := hres
    rw [← hw2]
    exact InvA_update (InvA_flushWordBuffer ext fuel w x h hx) _ rfl rfl rfl rfl
  | nbsp =>
    simp only [stepAtom, Option.some.injEq] at hres
    rw [← hres]
    exact InvA_update h _ rfl rfl rfl rfl
  | space =>
    simp only [stepAtom, Option.map_eq_some'] at hres
    obtain ⟨x, hx, hw2⟩ := hres
    rw [← hw2]
    exact InvA_writeSpaceToLine ext 0x20 (InvA_flushWordBuffer ext fuel w x h hx)
  | hardBreak =>
    simp only [stepAtom, Option.map_eq_some'] at hres
    obtain ⟨x, hx, hw2⟩ := hres
    rw [← hw2]
    exact InvA_update (InvA_writeHardLine ext (InvA_flushWordBuffer ext fuel w x h hx))
      _ rfl rfl rfl rfl
  | tab =>
    simp only [stepAtom, Option.bind_eq_some] at hres
    obtain ⟨x, hx, hmap⟩ := hres
    rw [Option.map_eq_some'] at hmap
    obtain ⟨p, hp, hw2⟩ := hmap
    rw [← hw2]
    have hxInv := InvA_flushWordBuffer ext fuel w x h hx
    have : writeTabToLine ext x = some (p.1, p.2) := by simpa using hp
    exact InvA_update (InvA_writeTabToLine ext hxInv this) _ rfl rfl rfl rfl
  | ignorable =>
    exact InvA_flushWordBuffer ext fuel w w2 h hres
  | otherSpace r =>
    simp only [stepAtom, Option.map_eq_some'] at hres
    obtain ⟨x, hx, hw2⟩ := hres
    rw [← hw2]
    exact InvA_update (InvA_writeSpaceToLine ext r (InvA_flushWordBuffer ext fuel w x h hx))
      _ rfl rfl rfl rfl
  | cluster rs =>
    simp only [stepAtom] at hres
    split at hres
    · simp only [Option.some.injEq] at hres
      rw [← hres]
      exact h
    · simp only [Option.some.injEq] at hres
      rw [← hres]
      exact InvA_update h _ rfl rfl rfl rfl

theorem InvA_runAtoms (ext : Externals) (fuel : Nat) {cfg : WordWrapConfig} :
    ∀ (atoms : List Atom) (w w2 : WrapStateMachine), InvA cfg w →
      runAtoms ext fuel atoms w = some w2 → InvA cfg w2 := by
  intro atoms
  induction atoms with
  | nil =>
    intro w w2 h hres
    simp only [runAtoms, Option.some.injEq] at hres
    rw [← hres]; exact h
  | cons a rest ih =>
    intro w w2 h hres
    simp only [runAtoms, Option.bind_eq_some] at hres
    obtain ⟨x, hx, hrest⟩ := hres
    exact ih x w2 (InvA_stepAtom ext fuel a h hx) hrest

/-! ### Preservation of the buffer-shape invariant -/

theorem not_NL_lineAfterTrim {w : WrapStateMachine} (h : NL ∉ w.lineBuffer) :
    NL ∉ lineAfterTrim w := by
  unfold lineAfterTrim
  split
  · intro hx
    exact h (mem_trimRightSpace hx)
  · exact h

theorem InvB_writeLine (ext : Externals) (hard split : Bool)
    {w : WrapStateMachine} (h : InvB w) : InvB (writeLine ext hard split w) := by
  obtain ⟨⟨lines, hbuf, hlen, hfree⟩, hline, hword⟩ := h
  refine ⟨⟨lines ++ [lineAfterTrim w], ?_, ?_, ?_⟩, ?_, ?_⟩
  · show w.buffer ++ (lineAfterTrim w ++ [NL]) = joinNL (lines ++ [lineAfterTrim w])
    rw [joinNL_append_single, hbuf]
  · simp [writeLine, hlen]
  · intro l hl
    rcases List.mem_append.mp hl with h1 | h2
    · exact hfree l h1
    · simp at h2
      rw [h2]
      exact not_NL_lineAfterTrim hline
  · show NL ∉ ([] : List Rune)
    simp
  · exact hword

theorem InvB_writeSoftLine (ext : Externals) (endsSplit : Bool)
    {w : WrapStateMachine} (h : InvB w) : InvB (writeSoftLine ext endsSplit w) :=
  InvB_writeLine ext false endsSplit h

theorem InvB_writeHardLine (ext : Externals) {w : WrapStateMachine} (h : InvB w) :
    InvB (writeHardLine ext w) :=
  InvB_writeLine ext true false h

theorem InvB_flushLineBuffer (ext : Externals) (len : Int) {w : WrapStateMachine}
    (h : InvB w) : InvB (flushLineBuffer ext len w) := by
  unfold flushLineBuffer
  split
  · exact InvB_writeSoftLine ext false h
  · exact h

theorem InvB_writeWord {w : WrapStateMachine} (h : InvB w) : InvB (writeWord w) := by
  obtain ⟨hb, hline, hword⟩ := h
  refine ⟨hb, ?_, List.not_mem_nil NL⟩
  intro hx
  rcases List.mem_append.mp hx with h1 | h2
  · exact hline h1
  · exact hword h2

theorem InvB_writeSpaceToLine (ext : Externals) {r : Rune} (hr : r ≠ NL)
    {w : WrapStateMachine} (h : InvB w) : InvB (writeSpaceToLine ext r w) := by
  have h1 := InvB_flushLineBuffer ext 1 h
  obtain ⟨hb, hline, hword⟩ := h1
  simp only [writeSpaceToLine]
  split
  · refine ⟨hb, ?_, hword⟩
    intro hx
    rcases List.mem_append.mp hx with h2 | h3
    · exact hline h2
    · simp at h3
      exact hr h3.symm
  · exact ⟨hb, hline, hword⟩

theorem InvB_tabPair (ext : Externals) {w : WrapStateMachine} (h : InvB w) :
    InvB (tabPair ext w).1 := by
  have h1 := InvB_flushLineBuffer ext (tabAdj0 w) h
  simp only [tabPair]
  split
  · split
    · exact ⟨h1.1, h1.2.1, h1.2.2⟩
    · exact h1
  · exact h1

theorem InvB_writeTabToLine (ext : Externals) {w w2 : WrapStateMachine} {adj : Int}
    (h : InvB w) (hres : writeTabToLine ext w = some (w2, adj)) : InvB w2 := by
  have h1 := InvB_tabPair ext h
  unfold writeTabToLine at hres
  split at hres
  · simp at hres
  · simp only [Option.some.injEq, Prod.mk.injEq] at hres
    rw [← hres.1]
    obtain ⟨hb, hline, hword⟩ := h1
    refine ⟨hb, ?_, hword⟩
    intro hx
    rcases List.mem_append.mp hx with h2 | h3
    · exact hline h2
    · exact absurd (List.mem_replicate.mp h3).2 (by decide)

theorem gIterLoop_subWord_mem (ext : Externals) (lw lim : Int) :
    ∀ (cs : List (List Rune)) (g : GraphemeWordIter) (x : Rune),
      x ∈ (gIterLoop ext lw lim g cs).subWordBuffer →
      x ∈ g.subWordBuffer ∨ x ∈ g.cluster ∨ ∃ c ∈ cs, x ∈ c := by
  intro cs
  induction cs with
  | nil =>
    intro g x hx
    simp only [gIterLoop] at hx
    exact Or.inl hx
  | cons c rest ih =>
    intro g x hx
    rw [gIterLoop] at hx
    split at hx
    · rcases ih _ x hx with h1 | h2 | ⟨d, hd, hxd⟩
      · rcases List.mem_append.mp h1 with ha | hb
        · exact Or.inl ha
        · exact Or.inr (Or.inl hb)
      · exact Or.inr (Or.inr ⟨c, by simp, h2⟩)
      · exact Or.inr (Or.inr ⟨d, by simp [hd], hxd⟩)
    · exact Or.inl hx

theorem InvB_splitStep (ext : Externals)
    (hg : ∀ s, (ext.graphemes s).flatten = s)
    {w : WrapStateMachine} (h : InvB w) : InvB (splitStep ext w) := by
  obtain ⟨hb1, hline, hword⟩ := h
  simp only [splitStep]
  set g := gIterLoop ext w.pos.curLineWidth w.config.limit initGIter
    (ext.graphemes w.wordBuffer) with hgdef
  have hsub : NL ∉ g.subWordBuffer := by
    intro hx
    rw [hgdef] at hx
    rcases gIterLoop_subWord_mem ext _ _ _ _ _ hx with h1 | h2 | ⟨c, hc, hxc⟩
    · simp [initGIter] at h1
    · simp [initGIter] at h2
    · have hmem : NL ∈ (ext.graphemes w.wordBuffer).flatten := List.mem_flatten.mpr ⟨c, hc, hxc⟩
      rw [hg] at hmem
      exact hword hmem
  split
  · have h3 : InvB { w with
        lineBuffer := w.lineBuffer ++ g.subWordBuffer ++ [0x2D]
        pos := { w.pos with curLineWidth := w.pos.curLineWidth + 1 + g.subWordWidth } } := by
      refine ⟨hb1, ?_, hword⟩
      intro hx
      rcases List.mem_append.mp hx with h1 | h2
      · rcases List.mem_append.mp h1 with ha | hb2
        · exact hline ha
        · exact hsub hb2
      · simp at h2
        exact absurd h2 (by decide)
    obtain ⟨hb4, hl4, hw4⟩ := InvB_writeSoftLine ext (needsHyphen ext g) h3
    exact ⟨hb4, hl4, fun hx => hw4 (List.drop_subset _ _ hx)⟩
  · have h3 : InvB { w with
        lineBuffer := w.lineBuffer ++ g.subWordBuffer
        pos := { w.pos with curLineWidth := w.pos.curLineWidth + g.subWordWidth } } := by
      refine ⟨hb1, ?_, hword⟩
      intro hx
      rcases List.mem_append.mp hx with h1 | h2
      · exact hline h1
      · exact hsub h2
    obtain ⟨hb4, hl4, hw4⟩ := InvB_writeSoftLine ext (needsHyphen ext g) h3
    exact ⟨hb4, hl4, fun hx => hw4 (List.drop_subset _ _ hx)⟩

theorem InvB_flushWordBuffer (ext : Externals)
    (hg : ∀ s, (ext.graphemes s).flatten = s) :
    ∀ fuel (w w2 : WrapStateMachine), InvB w →
      flushWordBuffer ext fuel w = some w2 → InvB w2 := by
  intro fuel
  induction fuel with
  | zero => intro w w2 h hres; simp [flushWordBuffer] at hres
  | succ fuel ih =>
    intro w w2 h hres
    rw [flushWordBuffer] at hres
    split at hres
    · split at hres
      · simp only [Option.some.injEq] at hres
        rw [← hres]
        exact InvB_writeSoftLine ext false h
      · split at hres
        · rw [Option.map_eq_some'] at hres
          obtain ⟨x, hx, hw2⟩ := hres
          obtain ⟨hbx, hlx, hwx⟩ := ih _ _ (InvB_splitStep ext hg h) hx
          rw [← hw2]
          exact ⟨hbx, hlx, hwx⟩
        · simp only [Option.some.injEq] at hres
          rw [← hres]
          split
          · obtain ⟨hb4, hl4, hw4⟩ := InvB_writeWord (InvB_writeSoftLine ext false h)
            exact ⟨hb4, hl4, hw4⟩
          · obtain ⟨hb4, hl4, hw4⟩ := InvB_writeWord h
            exact ⟨hb4, hl4, hw4⟩
    · simp only [Option.some.injEq] at hres
      rw [← hres]
      obtain ⟨hb4, hl4, hw4⟩ := InvB_writeWord h
      exact ⟨hb4, hl4, hw4⟩

theorem InvB_stepAtom (ext : Externals) (fuel : Nat)
    (hg : ∀ s, (ext.graphemes s).flatten = s)
    {w w2 : WrapStateMachine} {a : Atom} (ha : atomNLFree a = true) (h : InvB w)
    (hres : stepAtom ext fuel w a = some w2) : InvB w2 := by
  cases a with
  | ansi rs =>
    simp only [stepAtom, Option.map_eq_some'] at hres
    obtain ⟨x, hx, hw2⟩ := hres
    obtain ⟨hbx, hlx, hwx⟩ := InvB_flushWordBuffer ext hg fuel w x h hx
    rw [← hw2]
    refine ⟨hbx, ?_, hwx⟩
    intro hmem
    rcases List.mem_append.mp hmem with h1 | h2
    · exact hlx h1
    · simp only [atomNLFree, List.all_eq_true, decide_eq_true_eq] at ha
      exact ha NL h2 rfl
  | nbsp =>
    simp only [stepAtom, Option.some.injEq] at hres
    rw [← hres]
    obtain ⟨hb, hl, hw⟩ := h
    refine ⟨hb, hl, ?_⟩
    intro hmem
    rcases List.mem_append.mp hmem with h1 | h2
    · exact hw h1
    · simp at h2
      exact absurd h2 (by decide)
  | space =>
    simp only [stepAtom, Option.map_eq_some'] at hres
    obtain ⟨x, hx, hw2⟩ := hres
    rw [← hw2]
    exact InvB_writeSpaceToLine ext (by decide) (InvB_flushWordBuffer ext hg fuel w x h hx)
  | hardBreak =>
    simp only [stepAtom, Option.map_eq_some'] at hres
    obtain ⟨x, hx, hw2⟩ := hres
    rw [← hw2]
    obtain ⟨hb4, hl4, hw4⟩ := InvB_writeHardLine ext (InvB_flushWordBuffer ext hg fuel w x h hx)
    exact ⟨hb4, hl4, hw4⟩
  | tab =>
    simp only [stepAtom, Option.bind_eq_some] at hres
    obtain ⟨x, hx, hmap⟩ := hres
    rw [Option.map_eq_some'] at hmap
    obtain ⟨p, hp, hw2⟩ := hmap
    rw [← hw2]
    have hxInv := InvB_flushWordBuffer ext hg fuel w x h hx
    have hp2 : writeTabToLine ext x = some (p.1, p.2) := by simpa using hp
    obtain ⟨hb4, hl4, hw4⟩ := InvB_writeTabToLine ext hxInv hp2
    exact ⟨hb4, hl4, hw4⟩
  | ignorable =>
    exact InvB_flushWordBuffer ext hg fuel w w2 h hres
  | otherSpace r =>
    simp only [stepAtom, Option.map_eq_some'] at hres
    obtain ⟨x, hx, hw2⟩ := hres
    rw [← hw2]
    simp only [atomNLFree, decide_eq_true_eq] at ha
    obtain ⟨hb4, hl4, hw4⟩ := InvB_writeSpaceToLine ext ha
      (InvB_flushWordBuffer ext hg fuel w x h hx)
    exact ⟨hb4, hl4, hw4⟩
  | cluster rs =>
    simp only [stepAtom] at hres
    split at hres
    · simp only [Option.some.injEq] at hres
      rw [← hres]
      exact h
    · simp only [Option.some.injEq] at hres
      rw [← hres]
      obtain ⟨hb, hl, hw⟩ := h
      refine ⟨hb, hl, ?_⟩
      intro hmem
      rcases List.mem_append.mp hmem with h1 | h2
      · exact hw h1
      · simp only [atomNLFree, List.all_eq_true, decide_eq_true_eq] at ha
        exact ha NL h2 rfl

theorem InvB_runAtoms (ext : Externals) (fuel : Nat)
    (hg : ∀ s, (ext.graphemes s).flatten = s) :
    ∀ (atoms : List Atom) (w w2 : WrapStateMachine), atomsNLFree atoms = true → InvB w →
      runAtoms ext fuel atoms w = some w2 → InvB w2 := by
  intro atoms
  induction atoms with
  | nil =>
    intro w w2 _ h hres
    simp only [runAtoms, Option.some.injEq] at hres
    rw [← hres]; exact h
  | cons a rest ih =>
    intro w w2 hwf h hres
    simp only [runAtoms, Option.bind_eq_some] at hres
    obtain ⟨x, hx, hrest⟩ := hres
    simp only [atomsNLFree, List.all_cons, Bool.and_eq_true] at hwf
    exact ih x w2 (by simp [atomsNLFree, hwf.2]) (InvB_stepAtom ext fuel hg hwf.1 h hx) hrest

/-! ### Shape of a successful run -/

theorem stringWrap_shape (ext : Externals) (fuel : Nat) (atoms : List Atom)
    (limit tabSize : Int) (trim split : Bool) (out : List Rune) (sq : WrappedStringSeq)
    (hg : ∀ s, (ext.graphemes s).flatten = s)
    (hwf : atomsNLFree atoms = true)
    (hres : stringWrap ext fuel atoms limit tabSize trim split = some (Except.ok (out, sq))) :
    (∃ e, chainEnd 0 0 sq.wrappedLines = some e) ∧
    (∃ lines, lines.length = sq.wrappedLines.length ∧ (∀ l ∈ lines, NL ∉ l) ∧
      out = (joinNL lines).dropLast ++ (if lastIsHard sq.wrappedLines then [NL] else [])) ∧
    (split = false → ∀ s ∈ sq.wrappedLines, s.endsWithSplitWord = false) := by
  simp only [stringWrap] at hres
  split at hres
  · simp at hres
  · cases hrun : runAtoms ext fuel atoms
        (initMachine { limit := limit, tabSize := tabSize,
                       trimWhitespace := trim, splitWord := split }) with
    | none => simp only [hrun] at hres; exact absurd hres (by simp)
    | some w =>
      simp only [hrun] at hres
      cases hflush : flushWordBuffer ext fuel w with
      | none => simp only [hflush] at hres; exact absurd hres (by simp)
      | some w1 =>
        simp only [hflush] at hres
        simp only [Option.some.injEq, Except.ok.injEq, Prod.mk.injEq] at hres
        have hA0 : InvA { limit := limit, tabSize := tabSize,
                          trimWhitespace := trim, splitWord := split }
            (initMachine { limit := limit, tabSize := tabSize,
                           trimWhitespace := trim, splitWord := split }) :=
          ⟨rfl, rfl, by simp [initMachine]⟩
        have hB0 : InvB (initMachine { limit := limit, tabSize := tabSize,
                                       trimWhitespace := trim, splitWord := split }) :=
          ⟨⟨[], rfl, rfl, by simp⟩, by simp [initMachine], by simp [initMachine]⟩
        have hA1 := InvA_runAtoms ext fuel _ _ _ hA0 hrun
        have hB1 := InvB_runAtoms ext fuel hg _ _ _ hwf hB0 hrun
        have hA2 := InvA_flushWordBuffer ext fuel _ _ hA1 hflush
        have hB2 := InvB_flushWordBuffer ext hg fuel _ _ hB1 hflush
        set w2v := if w1.lineBuffer = [] then w1 else writeSoftLine ext false w1 with hw2v
        have hA3 : InvA { limit := limit, tabSize := tabSize,
                          trimWhitespace := trim, splitWord := split } w2v := by
          rw [hw2v]
          split
          · exact hA2
          · exact InvA_writeSoftLine ext false hA2 (by intro hx; simp at hx)
        have hB3 : InvB w2v := by
          rw [hw2v]
          split
          · exact hB2
          · exact InvB_writeSoftLine ext false hB2
        obtain ⟨hout, hsq⟩ := hres
        obtain ⟨hcfg, hch, hflags⟩ := hA3
        obtain ⟨⟨lines, hbuf, hlen, hfree⟩, hlineB, hwordB⟩ := hB3
        subst hsq
        cases hlast : w2v.seq.getLast? with
        | none =>
          have hseqnil : w2v.seq = [] := List.getLast?_eq_none_iff.mp hlast
          simp only [finalize, hlast] at hout ⊢
          have hlines : lines = [] := by
            rw [hseqnil] at hlen
            simpa using List.length_eq_zero.mp (by simpa using hlen)
          refine ⟨⟨_, hch⟩, ?_, ?_⟩
          · refine ⟨[], by simp [hseqnil], by simp, ?_⟩
            rw [← hout, hbuf, hlines]
            simp [joinNL, lastIsHard, hseqnil]
          · intro hs s hmem
            rw [hseqnil] at hmem
            simp at hmem
        | some s =>
          have hseqne : w2v.seq ≠ [] := by
            intro he
            rw [he] at hlast
            simp at hlast
          have hlinesne : lines ≠ [] := by
            intro he
            rw [he] at hlen
            exact hseqne (List.length_eq_zero.mp (by simpa using hlen.symm))
          by_cases hhard : s.isHardBreak = true
          · simp only [finalize, hlast, hhard, if_true] at hout ⊢
            refine ⟨⟨_, hch⟩, ?_, ?_⟩
            · refine ⟨lines, hlen, hfree, ?_⟩
              have hlih : lastIsHard w2v.seq = true := by
                simp [lastIsHard, hlast, hhard]
              rw [hlih, ← hout, hbuf]
              simpa using joinNL_eq_dropLast lines hlinesne
            · intro hs
              exact hflags hs
          · have hhardf : s.isHardBreak = false := by
              cases hb : s.isHardBreak
              · rfl
              · exact absurd hb hhard
            simp only [finalize, hlast, hhardf, Bool.false_eq_true, if_false] at hout ⊢
            refine ⟨?_, ?_, ?_⟩
            · exact ⟨_, (chainEnd_updateLast w2v.seq 0 0).trans hch⟩
            · refine ⟨lines, ?_, hfree, ?_⟩
              · rw [updateLast_length]
                exact hlen
              · have hlih : lastIsHard (updateLast w2v.seq) = false := by
                  rw [lastIsHard_updateLast]
                  simp [lastIsHard, hlast, hhardf]
                rw [hlih, ← hout, hbuf]
                simp
            · intro hs s2 hmem
              rcases mem_updateLast hmem with h1 | ⟨t, ht, he⟩
              · exact hflags hs s2 h1
              · rw [he]
                simp only [setLastInOrig]
                exact hflags hs t ht

/-! ### Structure of the split-point scan -/

theorem gIterLoop_rel (ext : Externals) (lw lim : Int) :
    ∀ (cs : List (List Rune)) (g : GraphemeWordIter), ∃ k, k ≤ cs.length ∧
      ((k = 0 ∧ gIterLoop ext lw lim g cs = g) ∨
       (1 ≤ k ∧
        (gIterLoop ext lw lim g cs).subWordBuffer =
          g.subWordBuffer ++ g.cluster ++ (cs.take (k - 1)).flatten ∧
        (gIterLoop ext lw lim g cs).cluster = (cs.take k).getLastD [] ∧
        (gIterLoop ext lw lim g cs).preLimitCluster = (cs.take (k - 1)).getLastD g.cluster)) := by
  intro cs
  induction cs with
  | nil =>
    intro g
    exact ⟨0, Nat.le_refl 0, Or.inl ⟨rfl, rfl⟩⟩
  | cons c rest ih =>
    intro g
    rw [gIterLoop]
    split
    · obtain ⟨k2, hk2, hcase⟩ := ih
        { subWordBuffer := g.subWordBuffer ++ g.cluster
          subWordWidth := g.subWordWidth + g.nextClusterWidth
          preLimitCluster := g.cluster
          nextClusterWidth := ext.stringWidth c
          cluster := c }
      rcases hcase with ⟨hz, heq⟩ | ⟨h1, hsub, hclu, hpre⟩
      · refine ⟨1, by simp, Or.inr ⟨Nat.le_refl 1, ?_, ?_, ?_⟩⟩
        · rw [heq]
          simp
        · rw [heq]
          simp [List.getLastD_cons]
        · rw [heq]
          simp
      · refine ⟨k2 + 1, by simp [List.length_cons]; omega, Or.inr ⟨by omega, ?_, ?_, ?_⟩⟩
        · cases k2 with
          | zero => omega
          | succ k3 =>
            rw [hsub]
            simp only [Nat.add_sub_cancel, List.take_succ_cons, List.flatten_cons]
            simp
        · rw [hclu]
          have hne : rest.take k2 ≠ [] := by
            intro he
            rcases List.take_eq_nil_iff.mp he with h0 | h0
            · omega
            · rw [h0] at hk2
              simp at hk2
              omega
          rw [List.take_succ_cons, List.getLastD_cons]
          exact (getLastD_congr _ _ _ hne).symm
        · rw [hpre]
          cases k2 with
          | zero => omega
          | succ k3 =>
            simp only [Nat.add_sub_cancel, List.take_succ_cons, List.getLastD_cons]
    · exact ⟨0, Nat.zero_le _, Or.inl ⟨rfl, rfl⟩⟩

theorem gIterLoop_cut (ext : Externals) (lw lim : Int) (cs : List (List Rune)) :
    ∃ m, m ≤ cs.length ∧
      (gIterLoop ext lw lim initGIter cs).subWordBuffer = (cs.take m).flatten ∧
      (gIterLoop ext lw lim initGIter cs).preLimitCluster = (cs.take m).getLastD [] ∧
      ((gIterLoop ext lw lim initGIter cs).cluster = (cs.drop m).headD [] ∨
       (m = 0 ∧ (gIterLoop ext lw lim initGIter cs).cluster = [])) := by
  obtain ⟨k, hk, hcase⟩ := gIterLoop_rel ext lw lim cs initGIter
  rcases hcase with ⟨hz, heq⟩ | ⟨h1, hsub, hclu, hpre⟩
  · refine ⟨0, Nat.zero_le _, ?_, ?_, Or.inr ⟨rfl, ?_⟩⟩
    · rw [heq]; rfl
    · rw [heq]; rfl
    · rw [heq]; rfl
  · refine ⟨k - 1, by omega, ?_, ?_, Or.inl ?_⟩
    · rw [hsub]
      simp [initGIter]
    · rw [hpre]
      rfl
    · rw [hclu]
      exact take_getLastD_eq_drop_headD cs k h1 hk

/-! ### Non-termination of the split recursion -/

theorem flushDiverges : ∀ (fuel : Nat) (w : WrapStateMachine), DivState w →
    flushWordBuffer demoExt fuel w = none := by
  intro fuel
  induction fuel with
  | zero => intro w _; rfl
  | succ fuel ih =>
    intro w h
    obtain ⟨hc, hwb, hww, hlw, hnb⟩ := h
    have hgval : gIterLoop demoExt 0 (2 : Int) initGIter (demoExt.graphemes [0x4E16, 0x754C]) =
        { subWordBuffer := [], subWordWidth := 0, preLimitCluster := [],
          nextClusterWidth := 2, cluster := [0x4E16] } := by decide
    have hdiv : DivState (splitStep demoExt w) := by
      unfold DivState
      simp only [splitStep]
      rw [hwb, hlw, hc]
      simp only [divergeCfg]
      rw [hgval]
      rw [if_neg (by decide)]
      refine ⟨?_, ?_, ?_, ?_, ?_⟩ <;>
        simp [writeSoftLine, writeLine, hww, hc, hnb, hwb, hlw]
    rw [flushWordBuffer]
    rw [hww, hlw, hc, hnb]
    simp only [divergeCfg]
    rw [if_pos (by decide), if_neg (by decide), if_pos (by decide)]
    rw [ih (splitStep demoExt w) hdiv]
    rfl

/-! ### Further helpers for the claims -/

theorem demoExt_graphemes_flatten : ∀ s, (demoExt.graphemes s).flatten = s := by
  intro s
  induction s with
  | nil => rfl
  | cons a t ih =>
    simp only [demoExt, List.map_cons, List.flatten_cons] at ih ⊢
    rw [ih]
    rfl

theorem stringWrap_invA (ext : Externals) (fuel : Nat) (atoms : List Atom)
    (limit tabSize : Int) (trim split : Bool) (out : List Rune) (sq : WrappedStringSeq)
    (hres : stringWrap ext fuel atoms limit tabSize trim split = some (Except.ok (out, sq))) :
    (∃ e, chainEnd 0 0 sq.wrappedLines = some e) ∧
    (split = false → allNotSplit sq.wrappedLines) := by
  simp only [stringWrap] at hres
  split at hres
  · simp at hres
  · cases hrun : runAtoms ext fuel atoms
        (initMachine { limit := limit, tabSize := tabSize,
                       trimWhitespace := trim, splitWord := split }) with
    | none => simp only [hrun] at hres; exact absurd hres (by simp)
    | some w =>
      simp only [hrun] at hres
      cases hflush : flushWordBuffer ext fuel w with
      | none => simp only [hflush] at hres; exact absurd hres (by simp)
      | some w1 =>
        simp only [hflush] at hres
        simp only [Option.some.injEq, Except.ok.injEq, Prod.mk.injEq] at hres
        have hA0 : InvA { limit := limit, tabSize := tabSize,
                          trimWhitespace := trim, splitWord := split }
            (initMachine { limit := limit, tabSize := tabSize,
                           trimWhitespace := trim, splitWord := split }) :=
          ⟨rfl, rfl, by simp [initMachine]⟩
        have hA1 := InvA_runAtoms ext fuel _ _ _ hA0 hrun
        have hA2 := InvA_flushWordBuffer ext fuel _ _ hA1 hflush
        set w2v := if w1.lineBuffer = [] then w1 else writeSoftLine ext false w1 with hw2v
        have hA3 : InvA { limit := limit, tabSize := tabSize,
                          trimWhitespace := trim, splitWord := split } w2v := by
          rw [hw2v]
          split
          · exact hA2
          · exact InvA_writeSoftLine ext false hA2 (by intro hx; simp at hx)
        obtain ⟨hout, hsq⟩ := hres
        obtain ⟨hcfg, hch, hflags⟩ := hA3
        subst hsq
        cases hlast : w2v.seq.getLast? with
        | none =>
          simp only [finalize, hlast]
          exact ⟨⟨_, hch⟩, fun hs => hflags hs⟩
        | some s =>
          by_cases hhard : s.isHardBreak = true
          · simp only [finalize, hlast, hhard, if_true]
            exact ⟨⟨_, hch⟩, fun hs => hflags hs⟩
          · have hhardf : s.isHardBreak = false := by
              cases hb : s.isHardBreak
              · rfl
              · exact absurd hb hhard
            simp only [finalize, hlast, hhardf, Bool.false_eq_true, if_false]
            refine ⟨⟨_, (chainEnd_updateLast w2v.seq 0 0).trans hch⟩, ?_⟩
            intro hs s2 hmem
            rcases mem_updateLast hmem with h1 | ⟨t, ht, he⟩
            · exact hflags hs s2 h1
            · rw [he]
              simp only [setLastInOrig]
              exact hflags hs t ht

theorem stringWrap_config_echo (ext : Externals) (fuel : Nat) (atoms : List Atom)
    (limit tabSize : Int) (trim split : Bool) (out : List Rune) (sq : WrappedStringSeq)
    (hres : stringWrap ext fuel atoms limit tabSize trim split = some (Except.ok (out, sq))) :
    sq.limit = limit ∧ sq.tabSize = tabSize ∧ sq.wordSplitAllowed = split := by
  simp only [stringWrap] at hres
  split at hres
  · simp at hres
  · cases hrun : runAtoms ext fuel atoms
        (initMachine { limit := limit, tabSize := tabSize,
                       trimWhitespace := trim, splitWord := split }) with
    | none => simp only [hrun] at hres; exact absurd hres (by simp)
    | some w =>
      simp only [hrun] at hres
      cases hflush : flushWordBuffer ext fuel w with
      | none => simp only [hflush] at hres; exact absurd hres (by simp)
      | some w1 =>
        simp only [hflush] at hres
        simp only [Option.some.injEq, Except.ok.injEq, Prod.mk.injEq] at hres
        rw [← hres.2]
        exact ⟨rfl, rfl, rfl⟩

/-! ### The claims -/

/-- C1: for every input accepted without error, the recorded segments tile
the original input contiguously: the first segment's byte interval and
rune interval both start at offset 0, and each segment's end offset
equals the next segment's start offset, independently in the byte and
rune coordinate spaces. -/
theorem claim_C1_segments_tile (ext : Externals) (fuel : Nat) (atoms : List Atom)
    (limit tabSize : Int) (trim split : Bool) (out : List Rune) (sq : WrappedStringSeq)
    (hres : stringWrap ext fuel atoms limit tabSize trim split = some (Except.ok (out, sq))) :
    tiles sq.wrappedLines := by
  obtain ⟨⟨e, hch⟩, -⟩ := stringWrap_invA ext fuel atoms limit tabSize trim split out sq hres
  exact chainEnd_tiles sq.wrappedLines 0 0 e hch

theorem claim_C1_segments_tile_witness : tiles (wrapSeqFull resDemo).wrappedLines :=
  claim_C1_segments_tile demoExt 50 atomsDemo 4 4 true false
    (wrapOut resDemo) (wrapSeqFull resDemo) rfl

/-- C8: with word splitting disabled (the `StringWrap` entry point), no
returned segment ever has its `EndsWithSplitWord` flag set. -/
theorem claim_C8_no_split_flag (ext : Externals) (fuel : Nat) (atoms : List Atom)
    (limit tabSize : Int) (trim : Bool) (out : List Rune) (sq : WrappedStringSeq)
    (hres : goStringWrap ext fuel atoms limit tabSize trim = some (Except.ok (out, sq))) :
    allNotSplit sq.wrappedLines := by
  obtain ⟨-, hflag⟩ := stringWrap_invA ext fuel atoms limit tabSize trim false out sq hres
  exact hflag rfl

theorem claim_C8_no_split_flag_witness : allNotSplit (wrapSeqFull resDemo).wrappedLines :=
  claim_C8_no_split_flag demoExt 50 atomsDemo 4 4 true
    (wrapOut resDemo) (wrapSeqFull resDemo) rfl

/-- C10: every successful call echoes its configuration in the returned
sequence: `Limit` and `TabSize` equal the arguments, and
`WordSplitAllowed` is false for `StringWrap` and true for
`StringWrapSplit`. -/
theorem claim_C10_config_echo (ext : Externals) (fuel : Nat) (atoms : List Atom)
    (limit tabSize : Int) (trim : Bool) (out out2 : List Rune) (sq sq2 : WrappedStringSeq) :
    (goStringWrap ext fuel atoms limit tabSize trim = some (Except.ok (out, sq)) →
      sq.limit = limit ∧ sq.tabSize = tabSize ∧ sq.wordSplitAllowed = false) ∧
    (goStringWrapSplit ext fuel atoms limit tabSize trim = some (Except.ok (out2, sq2)) →
      sq2.limit = limit ∧ sq2.tabSize = tabSize ∧ sq2.wordSplitAllowed = true) := by
  constructor
  · intro hres
    exact stringWrap_config_echo ext fuel atoms limit tabSize trim false out sq hres
  · intro hres
    exact stringWrap_config_echo ext fuel atoms limit tabSize trim true out2 sq2 hres

theorem claim_C10_config_echo_witness :
    ((wrapSeqFull resDemo).limit = 4 ∧ (wrapSeqFull resDemo).tabSize = 4 ∧
      (wrapSeqFull resDemo).wordSplitAllowed = false) ∧
    ((wrapSeqFull resDemoSplit).limit = 4 ∧ (wrapSeqFull resDemoSplit).tabSize = 4 ∧
      (wrapSeqFull resDemoSplit).wordSplitAllowed = true) :=
  ⟨(claim_C10_config_echo demoExt 50 atomsDemo 4 4 true
      (wrapOut resDemo) (wrapOut resDemoSplit) (wrapSeqFull resDemo) (wrapSeqFull resDemoSplit)).1 rfl,
   (claim_C10_config_echo demoExt 50 atomsDemo 4 4 true
      (wrapOut resDemo) (wrapOut resDemoSplit) (wrapSeqFull resDemo) (wrapSeqFull resDemoSplit)).2 rfl⟩

/-- C5: the split-point scan consumes a prefix of the word's grapheme
clusters; the cluster just before the cut is the last consumed one and
the cluster just after it is the first unconsumed one, and a hyphen is
required exactly when both of those clusters begin with a letter or a
number (the degenerate second disjunct is the scan that consumed
nothing and saw no cluster, where no hyphen is ever produced). -/
theorem claim_C5_hyphen_iff_wordy (ext : Externals) (lw lim : Int) (cs : List (List Rune)) :
    ∃ m, m ≤ cs.length ∧
      (gIterLoop ext lw lim initGIter cs).subWordBuffer = (cs.take m).flatten ∧
      (gIterLoop ext lw lim initGIter cs).preLimitCluster = (cs.take m).getLastD [] ∧
      (((gIterLoop ext lw lim initGIter cs).cluster = (cs.drop m).headD [] ∧
        needsHyphen ext (gIterLoop ext lw lim initGIter cs) =
          (isWordyGrapheme ext ((cs.take m).getLastD []) &&
           isWordyGrapheme ext ((cs.drop m).headD []))) ∨
       (m = 0 ∧ (gIterLoop ext lw lim initGIter cs).cluster = [])) := by
  obtain ⟨m, hm, hsub, hpre, hclu⟩ := gIterLoop_cut ext lw lim cs
  refine ⟨m, hm, hsub, hpre, ?_⟩
  rcases hclu with hclu | ⟨hm0, hclu⟩
  · refine Or.inl ⟨hclu, ?_⟩
    unfold needsHyphen
    rw [hclu, hpre]
    exact Bool.and_comm _ _
  · exact Or.inr ⟨hm0, hclu⟩

/-- C4: the word-splitting recursion does not terminate on every word:
when the first grapheme cluster of the pending word is at least as wide
as the limit, the scan commits no cluster at all, the word buffer never
shrinks, and `flushWordBuffer` recurses forever.  The machine below is
the state `StringWrapSplit("世界", 2, 4, false)` reaches at its
end-of-input flush; no amount of fuel makes the flush return. -/
theorem claim_C4_split_diverges : ∀ fuel : Nat,
    flushWordBuffer demoExt fuel divergeMachine = none := by
  intro fuel
  exact flushDiverges fuel divergeMachine ⟨rfl, rfl, rfl, rfl, rfl⟩

/-- C3: a limit below 2 is rejected with the validation error for any
other parameters, but a limit of at least 2 does not guarantee a nil
error on every input: `StringWrapSplit("世界", 2, 4, false)` never
returns at all, for any amount of fuel. -/
theorem claim_C3_error_behavior :
    (∀ (fuel : Nat) (tabSize : Int) (trim split : Bool),
      stringWrap demoExt fuel atomsWorld 1 tabSize trim split =
        some (Except.error "limit must be greater than one")) ∧
    (∀ fuel : Nat, goStringWrapSplit demoExt fuel atomsWorld 2 4 false = none) := by
  constructor
  · intro fuel tabSize trim split
    simp [stringWrap]
  · intro fuel
    show stringWrap demoExt fuel atomsWorld 2 4 false true = none
    have hrun : runAtoms demoExt fuel atomsWorld
        (initMachine { limit := 2, tabSize := 4, trimWhitespace := false, splitWord := true }) =
        some divergeMachine := rfl
    rw [stringWrap, if_neg (by decide)]
    simp only [hrun]
    rw [flushDiverges fuel divergeMachine ⟨rfl, rfl, rfl, rfl, rfl⟩]

/-- C6: evaluation at the failing input.  For the input
`"\x1b[31mred\x1b[0m"` both escape sequences appear byte-for-byte in the
output, but with trimming enabled the recorded segment width is 10 (the
external `StringWidth` recomputation counts the escape bodies), not the
3 columns the claim requires; with trimming disabled the width is 3. -/
theorem claim_C6_escape_width_eval :
    wrapOk resAnsiTrim = true ∧
    wrapOut resAnsiTrim = [27, 91, 51, 49, 109, 114, 101, 100, 27, 91, 48, 109] ∧
    (wrapSegs resAnsiTrim).map WrappedString.width = [10] ∧
    (wrapSegs resAnsiNoTrim).map WrappedString.width = [3] ∧
    (wrapSegs resAnsiTrim).map WrappedString.width ≠
      (wrapSegs resAnsiNoTrim).map WrappedString.width := by
  refine ⟨rfl, rfl, rfl, rfl, by decide⟩

/-- C2 fails as stated: `StringWrap "a\n" 5 4 true` succeeds with one
segment while the output text splits into two pieces, and
`StringWrap "　　" 5 4 true` succeeds with empty output text yet one
segment. -/
theorem claim_C2_counterexample :
    (wrapOk resHardA = true ∧ nlPieces (wrapOut resHardA) = 2 ∧
      (wrapSegs resHardA).length = 1 ∧
      nlPieces (wrapOut resHardA) ≠ (wrapSegs resHardA).length) ∧
    (wrapOk resIdeo = true ∧ wrapOut resIdeo = [] ∧ (wrapSegs resIdeo).length = 1 ∧
      (wrapSegs resIdeo).length ≠ 0) := by
  refine ⟨⟨rfl, rfl, rfl, by decide⟩, ⟨rfl, rfl, rfl, by decide⟩⟩

/-- C2 amended: on every successful run, the `\n`-piece count of the
output equals the segment count, except that a final hard-break segment
contributes one extra piece, and the output can be empty with a single
(fully trimmed, soft) segment; an empty segment list always means empty
output. -/
theorem claim_C2_piece_count (ext : Externals) (fuel : Nat) (atoms : List Atom)
    (limit tabSize : Int) (trim split : Bool) (out : List Rune) (sq : WrappedStringSeq)
    (hg : ∀ s, (ext.graphemes s).flatten = s)
    (hwf : atomsNLFree atoms = true)
    (hres : stringWrap ext fuel atoms limit tabSize trim split = some (Except.ok (out, sq))) :
    (sq.wrappedLines = [] → out = []) ∧
    (lastIsHard sq.wrappedLines = true → nlPieces out = sq.wrappedLines.length + 1) ∧
    (lastIsHard sq.wrappedLines = false → out ≠ [] → nlPieces out = sq.wrappedLines.length) ∧
    (out = [] → sq.wrappedLines.length ≤ 1) := by
  obtain ⟨-, ⟨lines, hlen, hfree, hout⟩, -⟩ :=
    stringWrap_shape ext fuel atoms limit tabSize trim split out sq hg hwf hres
  have hcnt : (joinNL lines).count NL = lines.length := count_joinNL lines hfree
  by_cases hlines : lines = []
  · subst hlines
    have hsq : sq.wrappedLines = [] := List.length_eq_zero.mp (by simpa using hlen.symm)
    have hlih : lastIsHard sq.wrappedLines = false := by rw [hsq]; rfl
    rw [hlih] at hout
    simp [joinNL] at hout
    refine ⟨fun _ => hout, ?_, ?_, ?_⟩
    · intro h
      rw [hlih] at h
      exact absurd h (by simp)
    · intro _ hne
      exact absurd hout hne
    · intro _
      rw [hsq]
      simp
  · have hjoin := joinNL_eq_dropLast lines hlines
    have hsqne : sq.wrappedLines ≠ [] := by
      intro he
      rw [he] at hlen
      exact hlines (List.length_eq_zero.mp hlen)
    cases hlih : lastIsHard sq.wrappedLines with
    | true =>
      rw [hlih] at hout
      simp only [if_true] at hout
      have hoeq : out = joinNL lines := by rw [hout, ← hjoin]
      refine ⟨fun h => absurd h hsqne, ?_, ?_, ?_⟩
      · intro _
        rw [hoeq]
        unfold nlPieces
        rw [if_neg (joinNL_ne_nil lines hlines), hcnt, hlen]
      · intro h
        exact absurd h (by simp)
      · intro ho
        rw [hoeq] at ho
        exact absurd ho (joinNL_ne_nil lines hlines)
    | false =>
      rw [hlih] at hout
      simp only [Bool.false_eq_true, if_false, List.append_nil] at hout
      have hdcnt : out.count NL + 1 = lines.length := by
        have hstep : (joinNL lines).count NL = out.count NL + 1 := by
          conv_lhs => rw [hjoin]
          rw [List.count_append, ← hout]
          simp
        omega
      refine ⟨?_, ?_, ?_, ?_⟩
      · intro h
        exact absurd h hsqne
      · intro h
        exact absurd h (by simp)
      · intro _ hne
        unfold nlPieces
        rw [if_neg hne]
        omega
      · intro ho
        rw [ho] at hdcnt
        simp at hdcnt
        omega

theorem claim_C2_piece_count_witness :
    nlPieces (wrapOut resDemo) = (wrapSeqFull resDemo).wrappedLines.length :=
  (claim_C2_piece_count demoExt 50 atomsDemo 4 4 true false
      (wrapOut resDemo) (wrapSeqFull resDemo)
      demoExt_graphemes_flatten rfl rfl).2.2.1 rfl (by decide)

/-- C7 fails as stated: `StringWrap "b\r" 5 4 true` succeeds with a single
(hard-break) segment and its output text ends in a terminator. -/
theorem claim_C7_counterexample :
    wrapOk resHardB = true ∧ (wrapSegs resHardB).length = 1 ∧
    wrapOut resHardB = [98, NL] ∧ (wrapOut resHardB).getLast? = some NL := by
  refine ⟨rfl, rfl, rfl, rfl⟩

/-- C7 amended: the output is the terminator-free segment lines joined by
single `\n` separators, and a trailing `\n` follows the final segment
exactly when that segment is a hard break (an input ending in a
hard-break code point keeps its trailing terminator). -/
theorem claim_C7_separators (ext : Externals) (fuel : Nat) (atoms : List Atom)
    (limit tabSize : Int) (trim split : Bool) (out : List Rune) (sq : WrappedStringSeq)
    (hg : ∀ s, (ext.graphemes s).flatten = s)
    (hwf : atomsNLFree atoms = true)
    (hres : stringWrap ext fuel atoms limit tabSize trim split = some (Except.ok (out, sq))) :
    linesShape out sq.wrappedLines :=
  (stringWrap_shape ext fuel atoms limit tabSize trim split out sq hg hwf hres).2.1

theorem claim_C7_separators_witness :
    linesShape (wrapOut resDemo) (wrapSeqFull resDemo).wrappedLines :=
  claim_C7_separators demoExt 50 atomsDemo 4 4 true false
    (wrapOut resDemo) (wrapSeqFull resDemo) demoExt_graphemes_flatten rfl rfl

/-- C9 fails as stated: deleting a vertical tab changes the result.
`StringWrap "abc\vdef" 4 4 true` yields `"abc\ndef"` in two in-limit
segments, while `StringWrap "abcdef" 4 4 true` yields the single
over-limit segment `"abcdef"`. -/
theorem claim_C9_counterexample :
    wrapOk resVT = true ∧ wrapOk resNoVT = true ∧
    wrapOut resVT = [97, 98, 99, NL, 100, 101, 102] ∧
    wrapOut resNoVT = [97, 98, 99, 100, 101, 102] ∧
    (wrapSegs resVT).map WrappedString.notWithinLimit = [false, false] ∧
    (wrapSegs resNoVT).map WrappedString.notWithinLimit = [true] ∧
    wrapOut resVT ≠ wrapOut resNoVT := by
  refine ⟨rfl, rfl, rfl, rfl, rfl, rfl, by decide⟩

/-- C9 amended: a vertical tab or form feed produces no output, no width
and no trimmed-whitespace count of its own — its whole effect is the
word-boundary flush it shares with every whitespace class.  In
particular, when no word is pending and the line is within the limit it
is an exact no-op on the machine state. -/
theorem claim_C9_ignorable_noop (ext : Externals) (fuel : Nat) (w : WrapStateMachine)
    (hword : w.wordBuffer = []) (hww : w.pos.curWordWidth = 0)
    (hnb : w.wordHasNbsp = false)
    (hfit : ¬ w.pos.curLineWidth > w.config.limit) (hfuel : 0 < fuel) :
    stepAtom ext fuel w Atom.ignorable = some w := by
  obtain ⟨f, rfl⟩ : ∃ f, fuel = f + 1 := ⟨fuel - 1, by omega⟩
  obtain ⟨lb, wb, bf, ⟨clw, cln, oln, cww, ols, osb, osr, tws⟩, sq, cf, nb⟩ := w
  simp only at hword hww hnb hfit
  subst hword hww hnb
  show flushWordBuffer ext (f + 1) _ = _
  rw [flushWordBuffer]
  rw [if_neg (by simpa using hfit)]
  simp [writeWord]

theorem claim_C9_ignorable_noop_witness :
    stepAtom demoExt 5 (initMachine divergeCfg) Atom.ignorable =
      some (initMachine divergeCfg) :=
  claim_C9_ignorable_noop demoExt 5 _ rfl rfl rfl (by decide) (by decide)
